import Mathlib

/-!
# Verification of the mosaic-o-matic KD-tree (`src/kdtree.cpp`, `src/maptiles.cpp`)

This file gives a shallow embedding of the KD-tree implementation in
`src/kdtree.cpp` and of the mosaic assembly in `src/maptiles.cpp`, and proves
(or refutes) the specification claims about them.

Modelling conventions:
* `Point<Dim>` (declared outside `src/`) is modelled from the spec as a tuple
  of scalar coordinates, here a `List Int` (the spec allows signed integers);
  its `operator<` is the lexicographic ordering `ptLtB`, its `operator[]`
  reads the coordinate at an index.  `coordD` is the total coordinate read
  (defaulting to 0 out of range); `coordRead` is the explicit partial read.
* the member vector `points` is a `List Pt`; in-place mutation becomes
  explicit state passing (each mutating function returns the new list).
* C++ `int` indices are `Int`; `std::vector` subscripts are `Int.toNat`
  accesses.  `size() - 1` on an empty vector is modelled as `-1` (the value
  the C++ code effectively passes once converted to `int`).
* recursive functions carry explicit fuel and return `Option`/`NNRes`;
  running out of fuel is distinguishable from an out-of-range read, so
  termination is an actual theorem (enough fuel never exhausts).
* Lean's `/` on `Int` (Euclidean) agrees with C++ truncated division on all
  divisions the code performs on entered ranges (operands are nonnegative
  there); arguments of calls that immediately hit their base case are the
  only places a negative numerator occurs, and those results are unused.
-/

/-- A point: tuple of scalar coordinates (`Point<Dim>`, modelled from the spec). -/
abbrev Pt := List Int

/-- Modelled from the spec: `Point::operator<`, the full lexicographic ordering
over coordinates, dimension 0 first. -/
def ptLtB : Pt → Pt → Bool
  | [], [] => false
  | [], _ :: _ => true
  | _ :: _, [] => false
  | a :: as, b :: bs => a < b || (a == b && ptLtB as bs)

/-- Total coordinate read: `p[d]` with default 0 (all reads the algorithms
perform are in range for points of the right dimension). -/
def coordD (p : Pt) (d : Int) : Int := p.getD d.toNat 0

/-- Embedding of `KDTree<Dim>::smallerDimVal` (kdtree.cpp:8-24).  The C++ guard is
`curDim >= Dim || curDim >= Dim` (the same test twice), hence only an
upper-bound check. -/
def smallerDimVal (Dim : Nat) (first second : Pt) (curDim : Int) : Bool :=
  if (Dim : Int) ≤ curDim then false
  else if coordD first curDim < coordD second curDim then true
  else if coordD first curDim == coordD second curDim then ptLtB first second
  else false

/-- Partial coordinate read: `Point::operator[]` surfacing out-of-range
accesses as `none` (modelled from the spec; the point has one coordinate per
dimension, so indices outside `[0, length)` are invalid). -/
def coordRead (p : Pt) (d : Int) : Option Int :=
  if 0 ≤ d ∧ d < (p.length : Int) then some (p.getD d.toNat 0) else none

/-- Embedding of `KDTree<Dim>::smallerDimVal` again, with the coordinate reads made
explicit: `none` means the comparison dereferenced an invalid coordinate. -/
def smallerDimValChecked (Dim : Nat) (first second : Pt) (curDim : Int) :
    Option Bool :=
  if (Dim : Int) ≤ curDim then some false
  else
    match coordRead first curDim, coordRead second curDim with
    | some x, some y =>
        if x < y then some true
        else if x == y then some (ptLtB first second)
        else some false
    | _, _ => none

/-- Embedding of `KDTree<Dim>::distanceSquared` (kdtree.cpp:60-76): sum over the `Dim`
dimensions of squared coordinate differences. -/
def distanceSquared (Dim : Nat) (a b : Pt) : Int :=
  (List.range Dim).foldl
    (fun d i => d + (a.getD i 0 - b.getD i 0) * (a.getD i 0 - b.getD i 0)) 0

/-- Embedding of `KDTree<Dim>::shouldReplace` (kdtree.cpp:27-51). -/
def shouldReplace (Dim : Nat) (target currentBest potential : Pt) : Bool :=
  if currentBest == potential then true
  else if distanceSquared Dim target potential < distanceSquared Dim target currentBest then true
  else if distanceSquared Dim target potential == distanceSquared Dim target currentBest then
    ptLtB potential currentBest
  else false

/-- Read of `list[i]` for an `int` index (in the algorithms every such read
has `0 ≤ i < length`). -/
def getP (l : List Pt) (i : Int) : Pt := l.getD i.toNat []

/-- Embedding of `std::swap(list[i], list[j])`. -/
def swapL (l : List Pt) (i j : Int) : List Pt :=
  (l.set i.toNat (getP l j)).set j.toNat (getP l i)

/-! ## Order lemmas for the comparison policy -/

theorem ptLtB_irrefl : ∀ a : Pt, ptLtB a a = false := by
  intro a
  induction a with
  | nil => rfl
  | cons x xs ih => simp [ptLtB, ih]

theorem ptLtB_asymm : ∀ a b : Pt, ptLtB a b = true → ptLtB b a = false := by
  intro a
  induction a with
  | nil => intro b _; cases b <;> rfl
  | cons x xs ih =>
    intro b h
    cases b with
    | nil => simp [ptLtB] at h
    | cons y ys =>
      simp only [ptLtB, Bool.or_eq_true, Bool.and_eq_true, decide_eq_true_eq,
        beq_iff_eq] at h
      rcases h with h | ⟨rfl, h⟩
      · have h1 : decide (y < x) = false := by simp; omega
        have h2 : (y == x) = false := by simp; omega
        simp [ptLtB, h1, h2]
      · simp [ptLtB, ih ys h]

theorem ptLtB_trans : ∀ a b c : Pt, ptLtB a b = true → ptLtB b c = true →
    ptLtB a c = true := by
  intro a
  induction a with
  | nil =>
    intro b c hab hbc
    cases b with
    | nil => exact hbc
    | cons y ys => cases c with
      | nil => simp [ptLtB] at hbc
      | cons z zs => rfl
  | cons x xs ih =>
    intro b c hab hbc
    cases b with
    | nil => simp [ptLtB] at hab
    | cons y ys =>
      cases c with
      | nil => simp [ptLtB] at hbc
      | cons z zs =>
        simp only [ptLtB, Bool.or_eq_true, Bool.and_eq_true, decide_eq_true_eq,
          beq_iff_eq] at hab hbc ⊢
        rcases hab with h1 | ⟨rfl, h1⟩
        · rcases hbc with h2 | ⟨rfl, h2⟩
          · left; omega
          · left; exact h1
        · rcases hbc with h2 | ⟨rfl, h2⟩
          · left; exact h2
          · right; exact ⟨rfl, ih ys zs h1 h2⟩

theorem ptLtB_total : ∀ a b : Pt, ptLtB a b = false → ptLtB b a = false → a = b := by
  intro a
  induction a with
  | nil =>
    intro b h1 _
    cases b with
    | nil => rfl
    | cons y ys => simp [ptLtB] at h1
  | cons x xs ih =>
    intro b h1 h2
    cases b with
    | nil => simp [ptLtB] at h2
    | cons y ys =>
      simp only [ptLtB, Bool.or_eq_false_iff, Bool.and_eq_false_iff,
        decide_eq_false_iff_not, beq_eq_false_iff_ne, ne_eq] at h1 h2
      have hxy : x = y := by omega
      subst hxy
      rcases h1.2 with h | h
      · omega
      · rcases h2.2 with h' | h'
        · omega
        · rw [ih ys h h']

theorem smallerDimVal_irrefl (Dim : Nat) (a : Pt) (d : Int) :
    smallerDimVal Dim a a d = false := by
  unfold smallerDimVal
  split
  · rfl
  · simp [ptLtB_irrefl]

theorem smallerDimVal_asymm (Dim : Nat) (a b : Pt) (d : Int)
    (h : smallerDimVal Dim a b d = true) : smallerDimVal Dim b a d = false := by
  unfold smallerDimVal at h ⊢
  split at h
  · exact absurd h (by simp)
  · rename_i hg
    rw [if_neg hg]
    split at h
    · rename_i hlt
      rw [if_neg (by omega), if_neg (by simp; omega)]
    · split at h
      · rename_i hne heq
        simp only [beq_iff_eq] at heq
        rw [if_neg (by omega), if_pos (by simp [heq]), ptLtB_asymm _ _ h]
      · exact absurd h (by simp)

theorem smallerDimVal_trans (Dim : Nat) (a b c : Pt) (d : Int)
    (hab : smallerDimVal Dim a b d = true) (hbc : smallerDimVal Dim b c d = true) :
    smallerDimVal Dim a c d = true := by
  unfold smallerDimVal at hab hbc ⊢
  split at hab
  · exact absurd hab (by simp)
  · rename_i hg
    rw [if_neg hg] at hbc ⊢
    split at hab
    · rename_i h1
      split at hbc
      · rename_i h2; rw [if_pos (by omega)]
      · split at hbc
        · rename_i _ h2
          simp only [beq_iff_eq] at h2
          rw [if_pos (by omega)]
        · exact absurd hbc (by simp)
    · split at hab
      · rename_i _ h1
        simp only [beq_iff_eq] at h1
        split at hbc
        · rename_i h2; rw [if_pos (by omega)]
        · split at hbc
          · rename_i _ h2
            simp only [beq_iff_eq] at h2
            rw [if_neg (by omega), if_pos (by simp [h1, h2])]
            exact ptLtB_trans _ _ _ hab hbc
          · exact absurd hbc (by simp)
      · exact absurd hab (by simp)

/-- A failed comparison bounds the coordinates: used to turn the partition
guarantees into the coordinate inequalities of the tree invariant. -/
theorem coord_le_of_not_smallerDimVal (Dim : Nat) (a b : Pt) (d : Int)
    (hd : d < (Dim : Int)) (h : smallerDimVal Dim a b d = false) :
    coordD b d ≤ coordD a d := by
  unfold smallerDimVal at h
  rw [if_neg (by omega)] at h
  split at h
  · exact absurd h (by simp)
  · omega

/-! ## List surgery lemmas -/

theorem getD_set_formula (l : List Pt) (n k : Nat) (a : Pt) :
    (l.set n a).getD k [] = if n = k ∧ n < l.length then a else l.getD k [] := by
  rw [List.getD_eq_getElem?_getD, List.getD_eq_getElem?_getD, List.getElem?_set]
  by_cases h1 : n = k
  · subst h1
    by_cases h2 : n < l.length
    · simp [h2]
    · simp [h2, List.getElem?_eq_none (by omega : l.length ≤ n)]
  · simp [h1]

theorem length_swapL (l : List Pt) (i j : Int) : (swapL l i j).length = l.length := by
  simp [swapL]

theorem getP_swapL_snd (l : List Pt) (i j : Int) (hj0 : 0 ≤ j)
    (hjl : j < (l.length : Int)) : getP (swapL l i j) j = getP l i := by
  unfold swapL getP
  rw [getD_set_formula, if_pos ⟨rfl, by simp; omega⟩]

theorem getP_swapL_fst (l : List Pt) (i j : Int) (hi0 : 0 ≤ i)
    (hil : i < (l.length : Int)) (hj0 : 0 ≤ j) (hjl : j < (l.length : Int)) :
    getP (swapL l i j) i = getP l j := by
  unfold swapL getP
  rcases eq_or_ne i j with rfl | hne
  · rw [getD_set_formula, if_pos ⟨rfl, by simp; omega⟩]
  · rw [getD_set_formula, if_neg (by rintro ⟨h1, -⟩; omega),
      getD_set_formula, if_pos ⟨rfl, by omega⟩]

theorem getP_swapL_other (l : List Pt) (i j k : Int) (hi0 : 0 ≤ i) (hj0 : 0 ≤ j)
    (hk0 : 0 ≤ k) (hki : k ≠ i) (hkj : k ≠ j) :
    getP (swapL l i j) k = getP l k := by
  unfold swapL getP
  rw [getD_set_formula, if_neg (by rintro ⟨h1, -⟩; omega),
    getD_set_formula, if_neg (by rintro ⟨h1, -⟩; omega)]

theorem set_getD_cons_perm : ∀ (t : List Pt) (k : Nat) (a : Pt), k < t.length →
    (t.getD k [] :: t.set k a).Perm (a :: t)
  | [], k, a, h => by simp at h
  | b :: s, 0, a, _ => by simpa using List.Perm.swap a b s
  | b :: s, k+1, a, h => by
    have ih := set_getD_cons_perm s k a (by simpa using h)
    simp only [List.getD_cons_succ, List.set_cons_succ]
    have h1 : (s.getD k [] :: b :: s.set k a).Perm (b :: s.getD k [] :: s.set k a) :=
      List.Perm.swap b (s.getD k []) _
    exact (h1.trans (ih.cons b)).trans (List.Perm.swap a b s)

theorem set_set_swap_perm : ∀ (l : List Pt) (m n : Nat), m < l.length → n < l.length →
    ((l.set m (l.getD n [])).set n (l.getD m [])).Perm l
  | [], _, _, hm, _ => by simp at hm
  | _ :: _, 0, 0, _, _ => by simp
  | a :: t, 0, n+1, _, hn => by
    simpa using set_getD_cons_perm t n a (by simpa using hn)
  | a :: t, m+1, 0, hm, _ => by
    simpa using set_getD_cons_perm t m a (by simpa using hm)
  | a :: t, m+1, n+1, hm, hn => by
    simpa using set_set_swap_perm t m n (by simpa using hm) (by simpa using hn)

theorem swapL_perm (l : List Pt) (i j : Int) (hi0 : 0 ≤ i)
    (hil : i < (l.length : Int)) (hj0 : 0 ≤ j) (hjl : j < (l.length : Int)) :
    (swapL l i j).Perm l := by
  unfold swapL getP
  exact set_set_swap_perm l i.toNat j.toNat (by omega) (by omega)

/-! ## Partition engine (`KDTree<Dim>::partition`, kdtree.cpp:169-196) -/

/-- The scan loop of `partition` (kdtree.cpp:181-189): `count` is the number
of remaining iterations, `i` the scan index, `storeIndex` the store cursor. -/
def partLoop (Dim : Nat) (pivotValue : Pt) (dim : Int) :
    Nat → List Pt → Int → Int → List Pt × Int
  | 0, l, _, storeIndex => (l, storeIndex)
  | c + 1, l, i, storeIndex =>
    if smallerDimVal Dim (getP l i) pivotValue dim then
      partLoop Dim pivotValue dim c (swapL l i storeIndex) (i + 1) (storeIndex + 1)
    else
      partLoop Dim pivotValue dim c l (i + 1) storeIndex

/-- Embedding of `KDTree<Dim>::partition` (kdtree.cpp:169-196): Lomuto partition of
`[low, high]` around the element at `pivotIndex`, returning the new list and
the final pivot position. -/
def partition (Dim : Nat) (l : List Pt) (low high pivotIndex dim : Int) :
    List Pt × Int :=
  let pivotValue := getP l pivotIndex
  let l1 := swapL l pivotIndex high
  let pr := partLoop Dim pivotValue dim (high - low).toNat l1 low low
  (swapL pr.1 high pr.2, pr.2)

theorem partLoop_spec (Dim : Nat) (pv : Pt) (dim : Int) :
    ∀ (c : Nat) (l : List Pt) (i storeIndex low high : Int),
      0 ≤ low → low ≤ storeIndex → storeIndex ≤ i → i + c = high →
      high < (l.length : Int) →
      (∀ k, low ≤ k → k < storeIndex → smallerDimVal Dim (getP l k) pv dim = true) →
      (∀ k, storeIndex ≤ k → k < i → smallerDimVal Dim (getP l k) pv dim = false) →
      (partLoop Dim pv dim c l i storeIndex).1.length = l.length ∧
      (partLoop Dim pv dim c l i storeIndex).1.Perm l ∧
      low ≤ (partLoop Dim pv dim c l i storeIndex).2 ∧
      (partLoop Dim pv dim c l i storeIndex).2 ≤ high ∧
      (∀ k, 0 ≤ k → (k < storeIndex ∨ high ≤ k) →
        getP (partLoop Dim pv dim c l i storeIndex).1 k = getP l k) ∧
      (∀ k, low ≤ k → k < (partLoop Dim pv dim c l i storeIndex).2 →
        smallerDimVal Dim (getP (partLoop Dim pv dim c l i storeIndex).1 k) pv dim = true) ∧
      (∀ k, (partLoop Dim pv dim c l i storeIndex).2 ≤ k → k < high →
        smallerDimVal Dim (getP (partLoop Dim pv dim c l i storeIndex).1 k) pv dim = false) := by
  intro c
  induction c with
  | zero =>
    intro l i st low high h0 h1 h2 h3 h4 hA hB
    have hih : i = high := by omega
    subst hih
    exact ⟨rfl, List.Perm.refl l, h1, h2, fun k _ _ => rfl, hA, hB⟩
  | succ c ih =>
    intro l i st low high h0 h1 h2 h3 h4 hA hB
    have hiH : i < high := by omega
    simp only [partLoop]
    by_cases hsm : smallerDimVal Dim (getP l i) pv dim = true
    · rw [if_pos hsm]
      have hswlen : (swapL l i st).length = l.length := length_swapL l i st
      have hbi : i < (l.length : Int) := by omega
      have hbst : st < (l.length : Int) := by omega
      have hA' : ∀ k, low ≤ k → k < st + 1 →
          smallerDimVal Dim (getP (swapL l i st) k) pv dim = true := by
        intro k hk1 hk2
        rcases eq_or_ne k st with rfl | hne
        · rw [getP_swapL_snd l i k (by omega) (by omega)]
          exact hsm
        · rw [getP_swapL_other l i st k (by omega) (by omega) (by omega) (by omega) hne]
          exact hA k hk1 (by omega)
      have hB' : ∀ k, st + 1 ≤ k → k < i + 1 →
          smallerDimVal Dim (getP (swapL l i st) k) pv dim = false := by
        intro k hk1 hk2
        have hki : k = i ∨ k < i := by omega
        rcases hki with rfl | hklt
        · rcases eq_or_ne st k with rfl | hne
          · omega
          · rw [getP_swapL_fst l k st (by omega) (by omega) (by omega) (by omega)]
            exact hB st (by omega) (by omega)
        · rw [getP_swapL_other l i st k (by omega) (by omega) (by omega) (by omega) (by omega)]
          exact hB k (by omega) hklt
      obtain ⟨l1, p1, p2, p3, pfr, pA, pB⟩ :=
        ih (swapL l i st) (i + 1) (st + 1) low high h0 (by omega) (by omega)
          (by omega) (by omega) hA' hB'
      refine ⟨l1.trans hswlen, p1.trans (swapL_perm l i st (by omega) hbi (by omega) hbst),
        by omega, p3, ?_, pA, pB⟩
      intro k hk0 hk
      rw [pfr k hk0 (by omega)]
      exact getP_swapL_other l i st k (by omega) (by omega) hk0 (by omega) (by omega)
    · rw [if_neg hsm]
      have hB' : ∀ k, st ≤ k → k < i + 1 →
          smallerDimVal Dim (getP l k) pv dim = false := by
        intro k hk1 hk2
        rcases eq_or_ne k i with rfl | hne
        · exact Bool.eq_false_iff.mpr hsm
        · exact hB k hk1 (by omega)
      obtain ⟨l1, p1, p2, p3, pfr, pA, pB⟩ :=
        ih l (i + 1) st low high h0 h1 (by omega) (by omega) (by omega) hA hB'
      exact ⟨l1, p1, p2, p3, fun k hk0 hk => pfr k hk0 hk, pA, pB⟩

theorem partition_spec (Dim : Nat) (l : List Pt) (low high pivotIndex dim : Int)
    (h0 : 0 ≤ low) (h1 : low ≤ pivotIndex) (h2 : pivotIndex ≤ high)
    (h3 : high < (l.length : Int)) :
    (partition Dim l low high pivotIndex dim).1.length = l.length ∧
    (partition Dim l low high pivotIndex dim).1.Perm l ∧
    low ≤ (partition Dim l low high pivotIndex dim).2 ∧
    (partition Dim l low high pivotIndex dim).2 ≤ high ∧
    getP (partition Dim l low high pivotIndex dim).1
      (partition Dim l low high pivotIndex dim).2 = getP l pivotIndex ∧
    (∀ k, 0 ≤ k → (k < low ∨ high < k) →
      getP (partition Dim l low high pivotIndex dim).1 k = getP l k) ∧
    (∀ k, low ≤ k → k < (partition Dim l low high pivotIndex dim).2 →
      smallerDimVal Dim (getP (partition Dim l low high pivotIndex dim).1 k)
        (getP l pivotIndex) dim = true) ∧
    (∀ k, (partition Dim l low high pivotIndex dim).2 < k → k ≤ high →
      smallerDimVal Dim (getP (partition Dim l low high pivotIndex dim).1 k)
        (getP l pivotIndex) dim = false) := by
  have hlh : low ≤ high := le_trans h1 h2
  have hl1len : ((swapL l pivotIndex high).length : Int) = (l.length : Int) := by
    rw [length_swapL]
  obtain ⟨plen, pperm, pst1, pst2, pfr, pA, pB⟩ :=
    partLoop_spec Dim (getP l pivotIndex) dim (high - low).toNat
      (swapL l pivotIndex high) low low low high h0 le_rfl le_rfl (by omega)
      (by omega)
      (fun k hk1 hk2 => absurd hk2 (by omega))
      (fun k hk1 hk2 => absurd hk2 (by omega))
  have hpeq : partition Dim l low high pivotIndex dim =
      (swapL (partLoop Dim (getP l pivotIndex) dim (high - low).toNat
          (swapL l pivotIndex high) low low).1 high
        (partLoop Dim (getP l pivotIndex) dim (high - low).toNat
          (swapL l pivotIndex high) low low).2,
       (partLoop Dim (getP l pivotIndex) dim (high - low).toNat
          (swapL l pivotIndex high) low low).2) := by
    simp only [partition]
  rw [hpeq]
  dsimp only
  set pr := partLoop Dim (getP l pivotIndex) dim (high - low).toNat
    (swapL l pivotIndex high) low low with hprdef
  have hprlen : ((pr.1.length : Int)) = (l.length : Int) := by
    rw [plen, length_swapL]
  have hpvHigh : getP pr.1 high = getP l pivotIndex := by
    rw [pfr high (by omega) (Or.inr le_rfl)]
    exact getP_swapL_snd l pivotIndex high (by omega) (by omega)
  constructor
  · rw [length_swapL, plen, length_swapL]
  constructor
  · exact ((swapL_perm pr.1 high pr.2 (by omega) (by omega) (by omega)
      (by omega)).trans pperm).trans
      (swapL_perm l pivotIndex high (by omega) (by omega) (by omega) (by omega))
  refine ⟨pst1, pst2, ?_, ?_, ?_, ?_⟩
  · rw [getP_swapL_snd pr.1 high pr.2 (by omega) (by omega)]
    exact hpvHigh
  · intro k hk0 hk
    rw [getP_swapL_other pr.1 high pr.2 k (by omega) (by omega) hk0
        (by omega) (by omega),
      pfr k hk0 (by omega)]
    exact getP_swapL_other l pivotIndex high k (by omega) (by omega) hk0
      (by omega) (by omega)
  · intro k hk1 hk2
    rw [getP_swapL_other pr.1 high pr.2 k (by omega) (by omega) (by omega)
        (by omega) (by omega)]
    exact pA k hk1 hk2
  · intro k hk1 hk2
    rcases eq_or_ne k high with rfl | hne
    · rw [getP_swapL_fst pr.1 k pr.2 (by omega) (by omega) (by omega) (by omega)]
      exact pB pr.2 le_rfl (by omega)
    · rw [getP_swapL_other pr.1 high pr.2 k (by omega) (by omega) (by omega)
        hne (by omega)]
      exact pB k (by omega) (by omega)

/-! ## Slices of the point sequence -/

theorem getP_eq_getElem (l : List Pt) (i : Int) (h0 : 0 ≤ i)
    (h1 : i < (l.length : Int)) : getP l i = l.get ⟨i.toNat, by omega⟩ := by
  unfold getP
  rw [List.getD_eq_getElem?_getD, List.getElem?_eq_getElem (by omega : i.toNat < l.length)]
  rfl

theorem getP_natCast (l : List Pt) (n : Nat) : getP l (n : Int) = l.getD n [] := rfl

theorem getD_eq_getElem_pt (l : List Pt) (n : Nat) (h : n < l.length) :
    l.getD n [] = l[n] := by
  rw [List.getD_eq_getElem?_getD, List.getElem?_eq_getElem h]
  rfl

/-- The sublist of positions `[low, high]` (inclusive, `int` indices). -/
def sliceI (l : List Pt) (low high : Int) : List Pt :=
  (l.take (high.toNat + 1)).drop low.toNat

theorem sliceI_getElem? (l : List Pt) (low high : Int) (t : Nat) :
    (sliceI l low high)[t]? =
      if low.toNat + t < high.toNat + 1 then l[low.toNat + t]? else none := by
  unfold sliceI
  rw [List.getElem?_drop, List.getElem?_take]

theorem getP_mem_sliceI (l : List Pt) (low high k : Int) (h0 : 0 ≤ low)
    (hk1 : low ≤ k) (hk2 : k ≤ high) (hlen : high < (l.length : Int)) :
    getP l k ∈ sliceI l low high := by
  have hkb : k.toNat < l.length := by omega
  have h2 : (sliceI l low high)[k.toNat - low.toNat]? = some (getP l k) := by
    rw [sliceI_getElem?, if_pos (by omega)]
    have he : low.toNat + (k.toNat - low.toNat) = k.toNat := by omega
    rw [he, List.getElem?_eq_getElem hkb, getP_eq_getElem l k (by omega) (by omega)]
    rfl
  exact List.getElem?_mem h2

theorem mem_sliceI_exists (l : List Pt) (low high : Int) (x : Pt) (h0 : 0 ≤ low)
    (hlh : low ≤ high) (hlen : high < (l.length : Int)) (hx : x ∈ sliceI l low high) :
    ∃ k : Int, low ≤ k ∧ k ≤ high ∧ getP l k = x := by
  obtain ⟨t, ht, hval⟩ := List.getElem_of_mem hx
  have hsome : (sliceI l low high)[t]? = some x := by
    rw [List.getElem?_eq_getElem ht, hval]
  rw [sliceI_getElem?] at hsome
  split at hsome
  · rename_i hguard
    have hb : low.toNat + t < l.length := by
      by_contra hcon
      rw [List.getElem?_eq_none (by omega)] at hsome
      exact Option.noConfusion hsome
    refine ⟨low + (t : Int), by omega, by omega, ?_⟩
    rw [List.getElem?_eq_getElem hb] at hsome
    have hval2 := Option.some.inj hsome
    unfold getP
    have hnt : (low + (t : Int)).toNat = low.toNat + t := by omega
    rw [hnt, getD_eq_getElem_pt l _ hb]
    exact hval2
  · exact Option.noConfusion hsome

theorem sliceI_decomp (l : List Pt) (low high : Int) (h0 : 0 ≤ low)
    (h1 : low ≤ high + 1) (h2 : high < (l.length : Int)) :
    l.take low.toNat ++ (sliceI l low high ++ l.drop (high.toNat + 1)) = l := by
  unfold sliceI
  have e1 : l.take low.toNat = (l.take (high.toNat + 1)).take low.toNat := by
    rw [List.take_take, min_eq_left (by omega)]
  calc l.take low.toNat ++ ((l.take (high.toNat + 1)).drop low.toNat ++ l.drop (high.toNat + 1))
      = (l.take low.toNat ++ (l.take (high.toNat + 1)).drop low.toNat) ++ l.drop (high.toNat + 1) := by
        rw [List.append_assoc]
    _ = l.take (high.toNat + 1) ++ l.drop (high.toNat + 1) := by
        rw [e1, List.take_append_drop]
    _ = l := List.take_append_drop _ l

theorem take_eq_of_frame (l l' : List Pt) (b : Int) (hlen : l'.length = l.length)
    (hfr : ∀ k : Int, 0 ≤ k → k < b → getP l' k = getP l k) :
    l'.take b.toNat = l.take b.toNat := by
  apply List.ext_getElem?
  intro t
  rw [List.getElem?_take, List.getElem?_take]
  split
  · rename_i ht
    by_cases hb : t < l.length
    · rw [List.getElem?_eq_getElem hb, List.getElem?_eq_getElem (by omega : t < l'.length)]
      have hfr2 := hfr (t : Int) (by omega) (by omega)
      rw [getP_natCast, getP_natCast, getD_eq_getElem_pt l' t (by omega),
        getD_eq_getElem_pt l t hb] at hfr2
      rw [hfr2]
    · rw [List.getElem?_eq_none (by omega), List.getElem?_eq_none (by omega)]
  · rfl

theorem drop_eq_of_frame (l l' : List Pt) (b : Int) (h0 : 0 ≤ b)
    (hlen : l'.length = l.length)
    (hfr : ∀ k : Int, b < k → getP l' k = getP l k) :
    l'.drop (b.toNat + 1) = l.drop (b.toNat + 1) := by
  apply List.ext_getElem?
  intro t
  rw [List.getElem?_drop, List.getElem?_drop]
  by_cases hb : b.toNat + 1 + t < l.length
  · rw [List.getElem?_eq_getElem hb, List.getElem?_eq_getElem (by omega : b.toNat + 1 + t < l'.length)]
    have hfr2 := hfr ((b.toNat + 1 + t : Nat) : Int) (by omega)
    rw [getP_natCast, getP_natCast, getD_eq_getElem_pt l' _ (by omega),
      getD_eq_getElem_pt l _ hb] at hfr2
    rw [hfr2]
  · rw [List.getElem?_eq_none (by omega), List.getElem?_eq_none (by omega)]

/-- A permutation that fixes everything outside `[low, high]` pointwise
restricts to a permutation of the `[low, high]` slice. -/
theorem sliceI_perm_of_perm_frame (l l' : List Pt) (low high : Int)
    (hperm : l'.Perm l) (hlen : l'.length = l.length)
    (hfr : ∀ k, 0 ≤ k → (k < low ∨ high < k) → getP l' k = getP l k)
    (h0 : 0 ≤ low) (hlh : low ≤ high) (h2 : high < (l.length : Int)) :
    (sliceI l' low high).Perm (sliceI l low high) := by
  have hT : l'.take low.toNat = l.take low.toNat :=
    take_eq_of_frame l l' low hlen (fun k hk1 hk2 => hfr k hk1 (Or.inl hk2))
  have hD : l'.drop (high.toNat + 1) = l.drop (high.toNat + 1) :=
    drop_eq_of_frame l l' high (by omega) hlen
      (fun k hk => hfr k (by omega) (Or.inr hk))
  have hd1 := sliceI_decomp l' low high h0 (by omega) (by omega)
  have hd2 := sliceI_decomp l low high h0 (by omega) h2
  rw [← hd1, ← hd2, hT, hD] at hperm
  exact (List.perm_append_right_iff _).mp ((List.perm_append_left_iff _).mp hperm)

/-! ## QuickSelect (`KDTree<Dim>::select`, kdtree.cpp:138-157) -/

/-- Embedding of `KDTree<Dim>::select`, with explicit fuel (`none` = out of fuel). -/
def selectF (Dim : Nat) : Nat → List Pt → Int → Int → Int → Int → Option (List Pt)
  | 0, _, _, _, _, _ => none
  | f + 1, l, low, high, n, dim =>
    if low = high then some l
    else
      let pr := partition Dim l low high n dim
      if n = pr.2 then some pr.1
      else if n < pr.2 then selectF Dim f pr.1 low (pr.2 - 1) n dim
      else selectF Dim f pr.1 (pr.2 + 1) high n dim

theorem select_spec (Dim : Nat) : ∀ (f : Nat) (l : List Pt) (low high n dim : Int),
    0 ≤ low → low ≤ n → n ≤ high → high < (l.length : Int) →
    (high - low).toNat < f →
    ∃ res, selectF Dim f l low high n dim = some res ∧
      res.length = l.length ∧ res.Perm l ∧
      (∀ k, 0 ≤ k → (k < low ∨ high < k) → getP res k = getP l k) ∧
      (∀ i, low ≤ i → i < n → smallerDimVal Dim (getP res n) (getP res i) dim = false) ∧
      (∀ j, n < j → j ≤ high → smallerDimVal Dim (getP res j) (getP res n) dim = false) := by
  intro f
  induction f with
  | zero => intro l low high n dim h0 h1 h2 h3 hf; omega
  | succ f ih =>
    intro l low high n dim h0 h1 h2 h3 hf
    by_cases hlh : low = high
    · have hnl : n = low := by omega
      refine ⟨l, by simp [selectF, hlh], rfl, List.Perm.refl l, fun k _ _ => rfl, ?_, ?_⟩
      · intro i hi1 hi2; omega
      · intro j hj1 hj2; omega
    · obtain ⟨plen, pperm, pp1, pp2, ppv, pfr, pA, pB⟩ :=
        partition_spec Dim l low high n dim h0 h1 h2 h3
      by_cases hnp : n = (partition Dim l low high n dim).2
      · refine ⟨(partition Dim l low high n dim).1, ?_, plen, pperm, ?_, ?_, ?_⟩
        · simp only [selectF]
          rw [if_neg hlh, if_pos hnp]
        · intro k hk0 hk; exact pfr k hk0 hk
        · intro i hi1 hi2
          have hv : getP (partition Dim l low high n dim).1 n = getP l n := by
            have hv0 := ppv; rw [← hnp] at hv0; exact hv0
          rw [hv]
          exact smallerDimVal_asymm Dim _ _ dim (pA i hi1 (by omega))
        · intro j hj1 hj2
          have hv : getP (partition Dim l low high n dim).1 n = getP l n := by
            have hv0 := ppv; rw [← hnp] at hv0; exact hv0
          rw [hv]
          exact pB j (by omega) hj2
      · by_cases hlt : n < (partition Dim l low high n dim).2
        · obtain ⟨res, heq, rlen, rperm, rfr, rleft, rright⟩ :=
            ih (partition Dim l low high n dim).1 low
              ((partition Dim l low high n dim).2 - 1) n dim h0 h1 (by omega)
              (by omega) (by omega)
          have hslice := sliceI_perm_of_perm_frame (partition Dim l low high n dim).1
            res low ((partition Dim l low high n dim).2 - 1) rperm rlen rfr h0
            (by omega) (by omega)
          have hmem : getP res n ∈ sliceI (partition Dim l low high n dim).1 low
              ((partition Dim l low high n dim).2 - 1) := by
            refine hslice.mem_iff.mp ?_
            exact getP_mem_sliceI res low _ n h0 h1 (by omega) (by omega)
          obtain ⟨k, hk1, hk2, hkeq⟩ := mem_sliceI_exists _ low _ _ h0 (by omega)
            (by omega) hmem
          have hnA : smallerDimVal Dim (getP res n) (getP l n) dim = true := by
            rw [← hkeq]
            exact pA k hk1 (by omega)
          refine ⟨res, ?_, rlen.trans plen, rperm.trans pperm, ?_, rleft, ?_⟩
          · simp only [selectF]
            rw [if_neg hlh, if_neg hnp, if_pos hlt]
            exact heq
          · intro k' hk0 hk
            rw [rfr k' hk0 (by omega)]
            exact pfr k' hk0 hk
          · intro j hj1 hj2
            rcases lt_trichotomy j (partition Dim l low high n dim).2 with hj | hj | hj
            · exact rright j hj1 (by omega)
            · have hv : getP res j = getP l n := by
                rw [rfr j (by omega) (by omega), hj]
                exact ppv
              rw [hv]
              exact smallerDimVal_asymm Dim _ _ dim hnA
            · have hv : getP res j = getP (partition Dim l low high n dim).1 j :=
                rfr j (by omega) (by omega)
              cases hcase : smallerDimVal Dim (getP res j) (getP res n) dim with
              | false => rfl
              | true =>
                exfalso
                have htr := smallerDimVal_trans Dim _ _ _ dim hcase hnA
                rw [hv] at htr
                rw [pB j (by omega) (by omega)] at htr
                exact Bool.noConfusion htr
        · have hgt : (partition Dim l low high n dim).2 < n := by omega
          obtain ⟨res, heq, rlen, rperm, rfr, rleft, rright⟩ :=
            ih (partition Dim l low high n dim).1
              ((partition Dim l low high n dim).2 + 1) high n dim (by omega)
              (by omega) h2 (by omega) (by omega)
          have hslice := sliceI_perm_of_perm_frame (partition Dim l low high n dim).1
            res ((partition Dim l low high n dim).2 + 1) high rperm rlen rfr
            (by omega) (by omega) (by omega)
          have hmem : getP res n ∈ sliceI (partition Dim l low high n dim).1
              ((partition Dim l low high n dim).2 + 1) high := by
            refine hslice.mem_iff.mp ?_
            exact getP_mem_sliceI res _ high n (by omega) (by omega) h2 (by omega)
          obtain ⟨k, hk1, hk2, hkeq⟩ := mem_sliceI_exists _ _ high _ (by omega)
            (by omega) (by omega) hmem
          have hnB : smallerDimVal Dim (getP res n) (getP l n) dim = false := by
            rw [← hkeq]
            exact pB k (by omega) hk2
          refine ⟨res, ?_, rlen.trans plen, rperm.trans pperm, ?_, ?_, rright⟩
          · simp only [selectF]
            rw [if_neg hlh, if_neg hnp, if_neg (by omega)]
            exact heq
          · intro k' hk0 hk
            rw [rfr k' hk0 (by omega)]
            exact pfr k' hk0 hk
          · intro i hi1 hi2
            rcases lt_trichotomy i (partition Dim l low high n dim).2 with hi | hi | hi
            · have hv : getP res i = getP (partition Dim l low high n dim).1 i :=
                rfr i (by omega) (by omega)
              cases hcase : smallerDimVal Dim (getP res n) (getP res i) dim with
              | false => rfl
              | true =>
                exfalso
                have hiA : smallerDimVal Dim (getP res i) (getP l n) dim = true := by
                  rw [hv]
                  exact pA i hi1 hi
                have htr := smallerDimVal_trans Dim _ _ _ dim hcase hiA
                rw [hnB] at htr
                exact Bool.noConfusion htr
            · have hv : getP res i = getP l n := by
                rw [rfr i (by omega) (by omega), hi]
                exact ppv
              rw [hv]
              exact hnB
            · exact rleft i (by omega) hi2

/-! ## Tree construction (`KDTree<Dim>::construct`, kdtree.cpp:112-128) -/

/-- Embedding of `KDTree<Dim>::construct`, with explicit fuel.  The constructor calls it
with `n` the midpoint of `[low, high]`, and each recursive call passes the
midpoint of the child range. -/
def constructF (Dim : Nat) : Nat → List Pt → Int → Int → Int → Int → Option (List Pt)
  | 0, _, _, _, _, _ => none
  | f + 1, l, low, high, n, dim =>
    if high ≤ low then some l
    else
      (selectF Dim (f + 1) l low high n dim).bind fun l1 =>
        (constructF Dim f l1 low (n - 1) ((low + n - 1) / 2)
            ((dim + 1) % (Dim : Int))).bind fun l2 =>
          constructF Dim f l2 (n + 1) high ((n + 1 + high) / 2)
            ((dim + 1) % (Dim : Int))

/-- Embedding of the constructor `KDTree<Dim>::KDTree` (kdtree.cpp:84-102): copy the input points and run
`construct` on the whole range (no-op on empty input).  The fuel `length + 1`
is enough (see `construct_spec`); the `getD` fallback is never taken. -/
def buildPoints (Dim : Nat) (newPoints : List Pt) : List Pt :=
  if newPoints.length = 0 then []
  else
    (constructF Dim (newPoints.length + 1) newPoints 0 ((newPoints.length : Int) - 1)
      ((0 + ((newPoints.length : Int) - 1)) / 2) 0).getD newPoints

/-- The index ranges (with their splitting dimensions) reachable by the
recursive split from a root range: the range itself, or a range reachable
from the left/right child around the midpoint (children exist only for
ranges with more than one element, mirroring `construct`'s recursion). -/
inductive ReachFrom (Dim : Nat) : Int → Int → Int → Int → Int → Int → Prop
  | here (low high dim : Int) : ReachFrom Dim low high dim low high dim
  | left {low high dim a b d : Int} : low < high →
      ReachFrom Dim low ((low + high) / 2 - 1) ((dim + 1) % (Dim : Int)) a b d →
      ReachFrom Dim low high dim a b d
  | right {low high dim a b d : Int} : low < high →
      ReachFrom Dim ((low + high) / 2 + 1) high ((dim + 1) % (Dim : Int)) a b d →
      ReachFrom Dim low high dim a b d

/-- The per-range invariant: both sides of the range's median are bounded by
it in the `smallerDimVal` order on the range's splitting dimension. -/
def RangeInv (Dim : Nat) (l : List Pt) (low high dim : Int) : Prop :=
  (∀ i, low ≤ i → i < (low + high) / 2 →
    smallerDimVal Dim (getP l ((low + high) / 2)) (getP l i) dim = false) ∧
  (∀ j, (low + high) / 2 < j → j ≤ high →
    smallerDimVal Dim (getP l j) (getP l ((low + high) / 2)) dim = false)

theorem rangeInv_of_empty (Dim : Nat) (l : List Pt) (low high dim : Int)
    (h : high ≤ low) : RangeInv Dim l low high dim := by
  constructor
  · intro i hi1 hi2; omega
  · intro j hj1 hj2; omega

theorem reach_nested (Dim : Nat) {low high dim a b d : Int}
    (h : ReachFrom Dim low high dim a b d) : low ≤ a ∧ b ≤ high := by
  induction h with
  | here => exact ⟨le_refl _, le_refl _⟩
  | left hlt _ ih => omega
  | right hlt _ ih => omega

theorem construct_spec (Dim : Nat) : ∀ (f : Nat) (l : List Pt) (low high dim n : Int),
    n = (low + high) / 2 → 0 ≤ low → high < (l.length : Int) →
    (high - low).toNat < f →
    ∃ res, constructF Dim f l low high n dim = some res ∧
      res.length = l.length ∧ res.Perm l ∧
      (∀ k, 0 ≤ k → (k < low ∨ high < k) → getP res k = getP l k) ∧
      (∀ a b d, ReachFrom Dim low high dim a b d → RangeInv Dim res a b d) := by
  intro f
  induction f with
  | zero => intro l low high dim n hn h0 h1 hf; omega
  | succ f ih =>
    intro l low high dim n hn h0 h1 hf
    by_cases hbase : high ≤ low
    · refine ⟨l, by simp [constructF, hbase], rfl, List.Perm.refl l,
        fun k _ _ => rfl, ?_⟩
      intro a b d hr
      cases hr with
      | here => exact rangeInv_of_empty Dim l low high dim hbase
      | left hlt _ => omega
      | right hlt _ => omega
    · have hlow : low < high := by omega
      have hnn : low ≤ n ∧ n ≤ high - 1 := by omega
      obtain ⟨l1, hsel, slen, sperm, sfr, sleft, sright⟩ :=
        select_spec Dim (f + 1) l low high n dim h0 (by omega) (by omega) h1
          (by omega)
      obtain ⟨l2, hL, llen, lperm, lfr, hLinv⟩ :=
        ih l1 low (n - 1) ((dim + 1) % (Dim : Int)) ((low + n - 1) / 2)
          (by omega) h0 (by omega) (by omega)
      obtain ⟨res, hR, rlen2, rperm2, rfr2, hRinv⟩ :=
        ih l2 (n + 1) high ((dim + 1) % (Dim : Int)) ((n + 1 + high) / 2)
          (by omega) (by omega) (by omega) (by omega)
      have heq : constructF Dim (f + 1) l low high n dim = some res := by
        simp only [constructF]
        rw [if_neg (by omega), hsel, Option.some_bind, hL, Option.some_bind, hR]
      have hmed : getP res n = getP l1 n := by
        rw [rfr2 n (by omega) (Or.inl (by omega)), lfr n (by omega) (Or.inr (by omega))]
      refine ⟨res, heq, rlen2.trans (llen.trans slen),
        (rperm2.trans lperm).trans sperm, ?_, ?_⟩
      · intro k hk0 hk
        rw [rfr2 k hk0 (by omega), lfr k hk0 (by omega)]
        exact sfr k hk0 hk
      · intro a b d hr
        cases hr with
        | here =>
          unfold RangeInv
          rw [← hn]
          constructor
          · intro i hi1 hi2
            have hresi : getP res i = getP l2 i := rfr2 i (by omega) (Or.inl (by omega))
            have hsl := sliceI_perm_of_perm_frame l1 l2 low (n - 1) lperm llen lfr
              h0 (by omega) (by omega)
            have hmem : getP l2 i ∈ sliceI l1 low (n - 1) := by
              refine hsl.mem_iff.mp ?_
              exact getP_mem_sliceI l2 low (n - 1) i h0 hi1 (by omega) (by omega)
            obtain ⟨k, hk1, hk2, hkeq⟩ := mem_sliceI_exists l1 low (n - 1) _ h0
              (by omega) (by omega) hmem
            rw [hmed, hresi, ← hkeq]
            exact sleft k hk1 (by omega)
          · intro j hj1 hj2
            have hsr := sliceI_perm_of_perm_frame l2 res (n + 1) high rperm2 rlen2
              rfr2 (by omega) (by omega) (by omega)
            have hmem : getP res j ∈ sliceI l2 (n + 1) high := by
              refine hsr.mem_iff.mp ?_
              exact getP_mem_sliceI res (n + 1) high j (by omega) (by omega) hj2
                (by omega)
            obtain ⟨k, hk1, hk2, hkeq⟩ := mem_sliceI_exists l2 (n + 1) high _
              (by omega) (by omega) (by omega) hmem
            rw [hmed, ← hkeq, lfr k (by omega) (Or.inr (by omega))]
            exact sright k (by omega) hk2
        | left hlt hr2 =>
          rw [← hn] at hr2
          have hinner := hLinv a b d hr2
          have hnest := reach_nested Dim hr2
          by_cases hab : b < a
          · exact rangeInv_of_empty Dim res a b d (by omega)
          · unfold RangeInv at hinner ⊢
            constructor
            · intro i hi1 hi2
              rw [rfr2 ((a + b) / 2) (by omega) (Or.inl (by omega)),
                rfr2 i (by omega) (Or.inl (by omega))]
              exact hinner.1 i hi1 hi2
            · intro j hj1 hj2
              rw [rfr2 ((a + b) / 2) (by omega) (Or.inl (by omega)),
                rfr2 j (by omega) (Or.inl (by omega))]
              exact hinner.2 j hj1 hj2
        | right hlt hr2 =>
          rw [← hn] at hr2
          exact hRinv a b d hr2

theorem reach_dim (Dim : Nat) {low high dim a b d : Int}
    (h : ReachFrom Dim low high dim a b d) :
    0 < Dim → 0 ≤ dim → dim < (Dim : Int) → 0 ≤ d ∧ d < (Dim : Int) := by
  induction h with
  | here => intro _ h1 h2; exact ⟨h1, h2⟩
  | left hlt hr ih =>
    intro hD h1 h2
    exact ih hD (Int.emod_nonneg _ (by omega)) (Int.emod_lt_of_pos _ (by omega))
  | right hlt hr ih =>
    intro hD h1 h2
    exact ih hD (Int.emod_nonneg _ (by omega)) (Int.emod_lt_of_pos _ (by omega))

/-- Master lemma about the constructor: length, permutation and the range
invariant for every reachable range of the built tree. -/
theorem buildPoints_spec (Dim : Nat) (pts : List Pt) (hne : pts ≠ []) :
    (buildPoints Dim pts).length = pts.length ∧ (buildPoints Dim pts).Perm pts ∧
    (∀ a b d, ReachFrom Dim 0 ((pts.length : Int) - 1) 0 a b d →
      RangeInv Dim (buildPoints Dim pts) a b d) := by
  have hlen : pts.length ≠ 0 := fun h => hne (List.length_eq_zero.mp h)
  obtain ⟨res, heq, hl, hp, _, hinv⟩ := construct_spec Dim (pts.length + 1) pts 0
    ((pts.length : Int) - 1) 0 ((0 + ((pts.length : Int) - 1)) / 2) rfl le_rfl
    (by omega) (by omega)
  have hbp : buildPoints Dim pts = res := by
    unfold buildPoints
    rw [if_neg hlen, heq]
    rfl
  rw [hbp]
  exact ⟨hl, hp, hinv⟩

/-- C2: for every input vector, the tree's point sequence after construction
is a permutation of the input: nothing is duplicated or dropped. -/
theorem buildPoints_perm (Dim : Nat) (pts : List Pt) :
    (buildPoints Dim pts).Perm pts := by
  by_cases h : pts = []
  · subst h
    simp [buildPoints]
  · exact (buildPoints_spec Dim pts h).2.1

/-- C3: after construction from a non-empty input, every range reachable by
the recursive split (from `[0, n-1]`, dimension `0`) has all points left of
its median at a coordinate `≤` the median's on the splitting dimension, and
all points right of it at a coordinate `≥` the median's. -/
theorem kdtree_range_invariant (Dim : Nat) (pts : List Pt) (hD : 0 < Dim)
    (hne : pts ≠ []) (a b d : Int)
    (hr : ReachFrom Dim 0 ((pts.length : Int) - 1) 0 a b d) :
    (∀ i, a ≤ i → i < (a + b) / 2 →
      coordD (getP (buildPoints Dim pts) i) d ≤
        coordD (getP (buildPoints Dim pts) ((a + b) / 2)) d) ∧
    (∀ j, (a + b) / 2 < j → j ≤ b →
      coordD (getP (buildPoints Dim pts) ((a + b) / 2)) d ≤
        coordD (getP (buildPoints Dim pts) j) d) := by
  have hinv := (buildPoints_spec Dim pts hne).2.2 a b d hr
  have hdim := reach_dim Dim hr hD le_rfl (by omega)
  constructor
  · intro i h1 h2
    exact coord_le_of_not_smallerDimVal Dim _ _ d (by omega) (hinv.1 i h1 h2)
  · intro j h1 h2
    exact coord_le_of_not_smallerDimVal Dim _ _ d (by omega) (hinv.2 j h1 h2)

/-- C3 witness: the tree built from `[(3),(1),(2)]` (one dimension) satisfies
the root-range invariant at both sides of the median. -/
theorem kdtree_range_invariant_witness :
    coordD (getP (buildPoints 1 [[3], [1], [2]]) 0) 0 ≤
      coordD (getP (buildPoints 1 [[3], [1], [2]]) 1) 0 ∧
    coordD (getP (buildPoints 1 [[3], [1], [2]]) 1) 0 ≤
      coordD (getP (buildPoints 1 [[3], [1], [2]]) 2) 0 := by
  have h := kdtree_range_invariant 1 [[3], [1], [2]] (by decide) (by decide)
    0 2 0 (ReachFrom.here 0 2 0)
  exact ⟨h.1 0 (by decide) (by decide), h.2 2 (by decide) (by decide)⟩

/-- C4: `partition` returns an index `r` in `[low, high]`; the element
originally at `pivotIndex` ends at `r`; all elements now in `[low, r-1]`
precede the pivot value under `smallerDimVal`, and all in `[r+1, high]` do
not precede it. -/
theorem partition_correct (Dim : Nat) (l : List Pt) (low high pivotIndex dim : Int)
    (h0 : 0 ≤ low) (h1 : low ≤ pivotIndex) (h2 : pivotIndex ≤ high)
    (h3 : high < (l.length : Int)) (hd0 : 0 ≤ dim) (hd1 : dim < (Dim : Int)) :
    low ≤ (partition Dim l low high pivotIndex dim).2 ∧
    (partition Dim l low high pivotIndex dim).2 ≤ high ∧
    getP (partition Dim l low high pivotIndex dim).1
      (partition Dim l low high pivotIndex dim).2 = getP l pivotIndex ∧
    (∀ i, low ≤ i → i < (partition Dim l low high pivotIndex dim).2 →
      smallerDimVal Dim (getP (partition Dim l low high pivotIndex dim).1 i)
        (getP l pivotIndex) dim = true) ∧
    (∀ j, (partition Dim l low high pivotIndex dim).2 < j → j ≤ high →
      smallerDimVal Dim (getP (partition Dim l low high pivotIndex dim).1 j)
        (getP l pivotIndex) dim = false) := by
  obtain ⟨_, _, p1, p2, pv, _, pA, pB⟩ :=
    partition_spec Dim l low high pivotIndex dim h0 h1 h2 h3
  exact ⟨p1, p2, pv, pA, pB⟩

/-- C4 witness: partitioning `[(3),(1),(2)]` over `[0,2]` around index 1. -/
theorem partition_correct_witness :
    (0 : Int) ≤ (partition 1 [[3], [1], [2]] 0 2 1 0).2 ∧
    (partition 1 [[3], [1], [2]] 0 2 1 0).2 ≤ 2 ∧
    getP (partition 1 [[3], [1], [2]] 0 2 1 0).1
      (partition 1 [[3], [1], [2]] 0 2 1 0).2 = getP [[3], [1], [2]] 1 ∧
    smallerDimVal 1 (getP (partition 1 [[3], [1], [2]] 0 2 1 0).1 1)
      (getP [[3], [1], [2]] 1) 0 = false := by
  obtain ⟨h1, h2, h3, _, h5⟩ := partition_correct 1 [[3], [1], [2]] 0 2 1 0
    (by decide) (by decide) (by decide) (by decide) (by decide) (by decide)
  exact ⟨h1, h2, h3, h5 1 (by decide) (by decide)⟩

/-! ## Nearest-neighbor search (`KDTree<Dim>::nearestIndex`, kdtree.cpp:220-270) -/

/-- Result of a `nearestIndex` computation: an index, an out-of-range vector
read (undefined behavior in the C++), or fuel exhaustion. -/
inductive NNRes where
  | ok : Int → NNRes
  | oob : NNRes
  | noFuel : NNRes
deriving DecidableEq, Repr

/-- Embedding of a `points[i]` read, surfacing out-of-range accesses as `none`. -/
def readPt (pts : List Pt) (i : Int) : Option Pt :=
  if 0 ≤ i ∧ i < (pts.length : Int) then some (getP pts i) else none

/-- Embedding of `KDTree<Dim>::nearestIndex` with explicit fuel.  The squared hyperplane
distance `diff * diff` is `|med[dim] - query[dim]|` squared, as in the C++
(`std::abs` followed by squaring; exact on integer coordinates). -/
def nearestIndexF (Dim : Nat) (pts : List Pt) (query : Pt) :
    Nat → Int → Int → Int → NNRes
  | 0, _, _, _ => .noFuel
  | f + 1, low, high, dim =>
    if high < low then .ok low
    else
      let medianIndex := (low + high) / 2
      match readPt pts medianIndex with
      | none => .oob
      | some med =>
        match (if smallerDimVal Dim query med dim then
                 nearestIndexF Dim pts query f low (medianIndex - 1)
                   ((dim + 1) % (Dim : Int))
               else
                 nearestIndexF Dim pts query f (medianIndex + 1) high
                   ((dim + 1) % (Dim : Int))) with
        | .ok cb0 =>
          match readPt pts cb0 with
          | none => .oob
          | some cbPt =>
            let currentBest := if shouldReplace Dim query cbPt med then medianIndex else cb0
            let cbPt1 := if shouldReplace Dim query cbPt med then med else cbPt
            let diff := (coordD med dim - coordD query dim) *
              (coordD med dim - coordD query dim)
            if diff ≤ distanceSquared Dim query cbPt1 then
              match (if medianIndex ≤ currentBest then
                       nearestIndexF Dim pts query f low (medianIndex - 1)
                         ((dim + 1) % (Dim : Int))
                     else
                       nearestIndexF Dim pts query f (medianIndex + 1) high
                         ((dim + 1) % (Dim : Int))) with
              | .ok pbi =>
                match readPt pts pbi with
                | none => .oob
                | some pbPt =>
                  .ok (if shouldReplace Dim query cbPt1 pbPt then pbi else currentBest)
              | r => r
            else .ok currentBest
        | r => r

/-- Embedding of `KDTree<Dim>::findNearestNeighbor` (kdtree.cpp:204-209): return
`points[nearestIndex(query, 0, points.size() - 1, 0)]`, with the final read
bounds-checked in the model. -/
def findNearestNeighbor (Dim : Nat) (pts : List Pt) (query : Pt) : Option Pt :=
  match nearestIndexF Dim pts query (pts.length + 1) 0 ((pts.length : Int) - 1) 0 with
  | .ok i => readPt pts i
  | _ => none

/-- C1 (refuted on the code): on the tree built from
`[(1,100,0), (2,50,0), (3,0,0)]` and query `(1,0,0)`, `findNearestNeighbor`
returns `(2,50,0)` (squared distance 2501) although `(3,0,0)` is a member of
the set at squared distance 4.  The backtracking step picks the subtree to
revisit with `currentBest >= medianIndex`, which re-explores the already
visited near side instead of the far side once the median has become the
current best. -/
theorem nns_wrong_side_bug :
    findNearestNeighbor 3 (buildPoints 3 [[1, 100, 0], [2, 50, 0], [3, 0, 0]])
      [1, 0, 0] = some [2, 50, 0] ∧
    [3, 0, 0] ∈ buildPoints 3 [[1, 100, 0], [2, 50, 0], [3, 0, 0]] ∧
    distanceSquared 3 [1, 0, 0] [3, 0, 0] <
      distanceSquared 3 [1, 0, 0] [2, 50, 0] := by decide

/-- C5 (refuted on the code): queried on a tree built from zero points,
`findNearestNeighbor` evaluates `points[nearestIndex(query, 0, -1, 0)]`;
the recursion immediately returns the sentinel index 0 and the final
`points[0]` read is out of range on the empty vector — undefined behavior,
not an explicit empty-tree failure. -/
theorem empty_tree_oob :
    buildPoints 3 [] = [] ∧
    nearestIndexF 3 [] [0, 0, 0] 1 0 (-1) 0 = NNRes.ok 0 ∧
    readPt ([] : List Pt) 0 = none ∧
    findNearestNeighbor 3 [] [0, 0, 0] = none := by decide

/-- C6 (refuted on the code): on the one-point tree `[(1,2,3)]` with query
`(4,4,4)`, the leaf call recurses into the empty right range `[1, 0]`, gets
back the sentinel index 1, and immediately dereferences `points[1]` — an
out-of-range read, although the claim says all reads stay in `[0, n-1]`. -/
theorem sentinel_deref_oob :
    nearestIndexF 3 [[1, 2, 3]] [4, 4, 4] 2 0 0 0 = NNRes.oob ∧
    findNearestNeighbor 3 (buildPoints 3 [[1, 2, 3]]) [4, 4, 4] = none := by decide

/-! ## C7: the dimension guard -/

/-- C7 counterexample: at `curDim = -1` (outside `[0, D)`) the guard
`curDim >= Dim || curDim >= Dim` does not fire, and the comparison goes on
to read `first[curDim]` — the checked model returns `none` (an out-of-range
coordinate read), not `some false`. -/
theorem smallerDimVal_negative_dim_reads :
    smallerDimValChecked 3 [0, 0, 0] [0, 0, 0] (-1) = none ∧
    smallerDimValChecked 3 [0, 0, 0] [0, 0, 0] (-1) ≠ some false := by decide

/-- C7 amended: for `curDim ≥ D` the guard fires and `smallerDimVal` returns
`false` without reading any coordinate; for `curDim < 0` the guard does not
fire and the coordinate at the invalid dimension is read (undefined
behavior, surfaced as `none`). -/
theorem smallerDimVal_guard_amended (Dim : Nat) (a b : Pt) (curDim : Int) :
    ((Dim : Int) ≤ curDim → smallerDimValChecked Dim a b curDim = some false) ∧
    (curDim < 0 → smallerDimValChecked Dim a b curDim = none) := by
  constructor
  · intro h
    unfold smallerDimValChecked
    rw [if_pos h]
  · intro h
    unfold smallerDimValChecked
    rw [if_neg (by omega : ¬ (Dim : Int) ≤ curDim)]
    have ha : coordRead a curDim = none := by
      unfold coordRead
      rw [if_neg (by omega)]
    rw [ha]

theorem smallerDimVal_guard_amended_witness :
    smallerDimValChecked 3 [0, 0, 0] [1, 1, 1] 5 = some false ∧
    smallerDimValChecked 3 [0, 0, 0] [1, 1, 1] (-2) = none :=
  ⟨(smallerDimVal_guard_amended 3 [0, 0, 0] [1, 1, 1] 5).1 (by decide),
   (smallerDimVal_guard_amended 3 [0, 0, 0] [1, 1, 1] (-2)).2 (by decide)⟩

/-! ## Termination -/

theorem nearestIndexF_not_noFuel (Dim : Nat) (pts : List Pt) (q : Pt) :
    ∀ (f : Nat) (low high dim : Int), (high + 1 - low).toNat < f →
      nearestIndexF Dim pts q f low high dim ≠ NNRes.noFuel := by
  intro f
  induction f with
  | zero => intro low high dim hf; omega
  | succ f ih =>
    intro low high dim hf
    by_cases hb : high < low
    · simp only [nearestIndexF, if_pos hb]
      exact fun h => NNRes.noConfusion h
    · have hm : low ≤ (low + high) / 2 ∧ (low + high) / 2 ≤ high := by omega
      have hrec1 : nearestIndexF Dim pts q f low ((low + high) / 2 - 1)
          ((dim + 1) % (Dim : Int)) ≠ NNRes.noFuel := ih _ _ _ (by omega)
      have hrec2 : nearestIndexF Dim pts q f ((low + high) / 2 + 1) high
          ((dim + 1) % (Dim : Int)) ≠ NNRes.noFuel := ih _ _ _ (by omega)
      simp only [nearestIndexF, if_neg hb]
      intro hcon
      repeat'
        first
        | exact NNRes.noConfusion hcon
        | exact hrec1 hcon
        | exact hrec2 hcon
        | split at hcon

/-- C8: tree construction terminates — the constructor's recursion succeeds
with fuel `n + 1` for every finite input, `select` succeeds whenever the
fuel exceeds its range size — and the `nearestIndex` recursion never
exhausts a fuel exceeding its range size. -/
theorem kdtree_terminates (Dim : Nat) :
    (∀ pts : List Pt,
      (constructF Dim (pts.length + 1) pts 0 ((pts.length : Int) - 1)
        ((0 + ((pts.length : Int) - 1)) / 2) 0).isSome) ∧
    (∀ (f : Nat) (l : List Pt) (low high n dim : Int),
      0 ≤ low → low ≤ n → n ≤ high → high < (l.length : Int) →
      (high - low).toNat < f → (selectF Dim f l low high n dim).isSome) ∧
    (∀ (f : Nat) (pts : List Pt) (q : Pt) (low high dim : Int),
      (high + 1 - low).toNat < f →
      nearestIndexF Dim pts q f low high dim ≠ NNRes.noFuel) := by
  refine ⟨?_, ?_, ?_⟩
  · intro pts
    obtain ⟨res, heq, -⟩ := construct_spec Dim (pts.length + 1) pts 0
      ((pts.length : Int) - 1) 0 ((0 + ((pts.length : Int) - 1)) / 2) rfl le_rfl
      (by omega) (by omega)
    rw [heq]
    rfl
  · intro f l low high n dim h0 h1 h2 h3 hf
    obtain ⟨res, heq, -⟩ := select_spec Dim f l low high n dim h0 h1 h2 h3 hf
    rw [heq]
    rfl
  · intro f pts q low high dim hf
    exact nearestIndexF_not_noFuel Dim pts q f low high dim hf

/-- C8 witness: concrete instances of all three termination statements. -/
theorem kdtree_terminates_witness :
    (constructF 3 4 [[0, 0, 0], [10, 10, 10], [5, 5, 5]] 0 2 1 0).isSome ∧
    (selectF 3 3 [[3], [1], [2]] 0 2 1 0).isSome ∧
    nearestIndexF 3 [[5, 5, 5]] [4, 4, 4] 2 0 0 0 ≠ NNRes.noFuel := by
  obtain ⟨h1, h2, h3⟩ := kdtree_terminates 3
  exact ⟨h1 [[0, 0, 0], [10, 10, 10], [5, 5, 5]],
    h2 3 [[3], [1], [2]] 0 2 1 0 (by decide) (by decide) (by decide) (by decide)
      (by decide),
    h3 2 [[5, 5, 5]] [4, 4, 4] 0 0 0 (by decide)⟩

/-! ## Frame lemmas (C9) -/

theorem partLoop_length (Dim : Nat) (pv : Pt) (dim : Int) :
    ∀ (c : Nat) (l : List Pt) (i st : Int),
      (partLoop Dim pv dim c l i st).1.length = l.length := by
  intro c
  induction c with
  | zero => intro l i st; rfl
  | succ c ih =>
    intro l i st
    simp only [partLoop]
    split
    · rw [ih, length_swapL]
    · rw [ih]

theorem partition_length (Dim : Nat) (l : List Pt) (low high pivotIndex dim : Int) :
    (partition Dim l low high pivotIndex dim).1.length = l.length := by
  simp only [partition]
  rw [length_swapL, partLoop_length, length_swapL]

theorem selectF_length (Dim : Nat) : ∀ (f : Nat) (l res : List Pt)
    (low high n dim : Int), selectF Dim f l low high n dim = some res →
    res.length = l.length := by
  intro f
  induction f with
  | zero => intro l res low high n dim h; exact Option.noConfusion h
  | succ f ih =>
    intro l res low high n dim h
    simp only [selectF] at h
    split at h
    · exact (Option.some.inj h) ▸ rfl
    · split at h
      · rw [← Option.some.inj h]
        exact partition_length Dim l low high n dim
      · split at h
        · rw [ih _ _ _ _ _ _ h]
          exact partition_length Dim l low high n dim
        · rw [ih _ _ _ _ _ _ h]
          exact partition_length Dim l low high n dim

theorem constructF_length (Dim : Nat) : ∀ (f : Nat) (l res : List Pt)
    (low high n dim : Int), constructF Dim f l low high n dim = some res →
    res.length = l.length := by
  intro f
  induction f with
  | zero => intro l res low high n dim h; exact Option.noConfusion h
  | succ f ih =>
    intro l res low high n dim h
    simp only [constructF] at h
    split at h
    · exact (Option.some.inj h) ▸ rfl
    · cases hsel : selectF Dim (f + 1) l low high n dim with
      | none => rw [hsel] at h; exact Option.noConfusion h
      | some l1 =>
        rw [hsel, Option.some_bind] at h
        cases hcl : constructF Dim f l1 low (n - 1) ((low + n - 1) / 2)
            ((dim + 1) % (Dim : Int)) with
        | none => rw [hcl] at h; exact Option.noConfusion h
        | some l2 =>
          rw [hcl, Option.some_bind] at h
          rw [ih _ _ _ _ _ _ h, ih _ _ _ _ _ _ hcl]
          exact selectF_length Dim (f + 1) l l1 low high n dim hsel

theorem selectF_frame (Dim : Nat) : ∀ (f : Nat) (l res : List Pt)
    (low high n dim : Int), selectF Dim f l low high n dim = some res →
    0 ≤ low → low ≤ n → n ≤ high → high < (l.length : Int) →
    ∀ k, 0 ≤ k → (k < low ∨ high < k) → getP res k = getP l k := by
  intro f
  induction f with
  | zero =>
    intro l res low high n dim h
    exact absurd h (by simp [selectF])
  | succ f ih =>
    intro l res low high n dim h h0 h1 h2 h3 k hk0 hk
    simp only [selectF] at h
    split at h
    · rw [← Option.some.inj h]
    · obtain ⟨plen, pperm, pp1, pp2, ppv, pfr, pA, pB⟩ :=
        partition_spec Dim l low high n dim h0 h1 h2 h3
      split at h
      · rw [← Option.some.inj h]
        exact pfr k hk0 hk
      · split at h
        · rename_i hneq hlt
          rw [ih _ _ _ _ _ _ h h0 h1 (by omega) (by omega) k hk0 (by omega)]
          exact pfr k hk0 hk
        · rename_i hneq hnlt
          rw [ih _ _ _ _ _ _ h (by omega) (by omega) h2 (by omega) k hk0 (by omega)]
          exact pfr k hk0 hk

theorem constructF_frame (Dim : Nat) : ∀ (f : Nat) (l res : List Pt)
    (low high n dim : Int), constructF Dim f l low high n dim = some res →
    0 ≤ low → high < (l.length : Int) → (high ≤ low ∨ (low ≤ n ∧ n ≤ high)) →
    ∀ k, 0 ≤ k → (k < low ∨ high < k) → getP res k = getP l k := by
  intro f
  induction f with
  | zero =>
    intro l res low high n dim h
    exact absurd h (by simp [constructF])
  | succ f ih =>
    intro l res low high n dim h h0 h1 hn k hk0 hk
    simp only [constructF] at h
    split at h
    · rw [← Option.some.inj h]
    · rename_i hbase
      have hnb : low ≤ n ∧ n ≤ high := by omega
      cases hsel : selectF Dim (f + 1) l low high n dim with
      | none => rw [hsel] at h; exact Option.noConfusion h
      | some l1 =>
        rw [hsel, Option.some_bind] at h
        cases hcl : constructF Dim f l1 low (n - 1) ((low + n - 1) / 2)
            ((dim + 1) % (Dim : Int)) with
        | none => rw [hcl] at h; exact Option.noConfusion h
        | some l2 =>
          rw [hcl, Option.some_bind] at h
          have hl1len := selectF_length Dim (f + 1) l l1 low high n dim hsel
          have hl2len := constructF_length Dim f l1 l2 _ _ _ _ hcl
          rw [ih _ _ _ _ _ _ h (by omega) (by omega) (by omega) k hk0 (by omega)]
          rw [ih _ _ _ _ _ _ hcl h0 (by omega) (by omega) k hk0 (by omega)]
          exact selectF_frame Dim (f + 1) l l1 low high n dim hsel h0 hnb.1
            hnb.2 h1 k hk0 hk

/-- C9: `partition`, `select` and `construct` leave every element at an
index outside `[low, high]` unchanged. -/
theorem kdtree_frame (Dim : Nat) :
    (∀ (l : List Pt) (low high pivotIndex dim k : Int),
      0 ≤ low → low ≤ pivotIndex → pivotIndex ≤ high → high < (l.length : Int) →
      0 ≤ k → (k < low ∨ high < k) →
      getP (partition Dim l low high pivotIndex dim).1 k = getP l k) ∧
    (∀ (f : Nat) (l res : List Pt) (low high n dim k : Int),
      selectF Dim f l low high n dim = some res →
      0 ≤ low → low ≤ n → n ≤ high → high < (l.length : Int) →
      0 ≤ k → (k < low ∨ high < k) → getP res k = getP l k) ∧
    (∀ (f : Nat) (l res : List Pt) (low high n dim k : Int),
      constructF Dim f l low high n dim = some res →
      0 ≤ low → high < (l.length : Int) → (high ≤ low ∨ (low ≤ n ∧ n ≤ high)) →
      0 ≤ k → (k < low ∨ high < k) → getP res k = getP l k) := by
  refine ⟨?_, ?_, ?_⟩
  · intro l low high pivotIndex dim k h0 h1 h2 h3 hk0 hk
    obtain ⟨-, -, -, -, -, pfr, -, -⟩ :=
      partition_spec Dim l low high pivotIndex dim h0 h1 h2 h3
    exact pfr k hk0 hk
  · intro f l res low high n dim k h h0 h1 h2 h3 hk0 hk
    exact selectF_frame Dim f l res low high n dim h h0 h1 h2 h3 k hk0 hk
  · intro f l res low high n dim k h h0 h1 hn hk0 hk
    exact constructF_frame Dim f l res low high n dim h h0 h1 hn k hk0 hk

/-- C9 witness: index 3 (outside `[0, 2]`) is untouched by a partition, a
select and a construct over `[0, 2]` of a four-point list. -/
theorem kdtree_frame_witness :
    getP (partition 1 [[3], [1], [2], [9]] 0 2 1 0).1 3 = getP [[3], [1], [2], [9]] 3 ∧
    getP [[1], [2], [3], [9]] 3 = getP [[3], [1], [2], [9]] 3 ∧
    getP [[1], [2], [3], [9]] 3 = getP [[3], [1], [2], [9]] 3 := by
  obtain ⟨h1, h2, h3⟩ := kdtree_frame 1
  refine ⟨h1 [[3], [1], [2], [9]] 0 2 1 0 3 (by decide) (by decide) (by decide)
      (by decide) (by decide) (Or.inr (by decide)), ?_, ?_⟩
  · exact h2 3 [[3], [1], [2], [9]] [[1], [2], [3], [9]] 0 2 1 0 3 (by decide)
      (by decide) (by decide) (by decide) (by decide) (by decide)
      (Or.inr (by decide))
  · exact h3 4 [[3], [1], [2], [9]] [[1], [2], [3], [9]] 0 2 1 0 3 (by decide)
      (by decide) (by decide) (Or.inr (by decide)) (by decide)
      (Or.inr (by decide))

/-! ## Mosaic assembly (`mapTiles`, maptiles.cpp:12-63) -/

/-- Modelled from the spec: a pixel's average color channels (`RGBAPixel`,
declared outside `src/`). -/
structure RGBAPixel where
  red : Int
  green : Int
  blue : Int
deriving DecidableEq, Inhabited

/-- Modelled from the spec: a tile image identified abstractly, exposing its
average color (`TileImage::getAverageColor`, declared outside `src/`). -/
structure TileImage where
  tid : Nat
  avgColor : RGBAPixel
deriving DecidableEq, Inhabited

def TileImage.getAverageColor (t : TileImage) : RGBAPixel := t.avgColor

/-- Modelled from the spec: the source image's mosaic dimensions and
per-region average color (`SourceImage::getRows/getColumns/getRegionColor`,
declared outside `src/`). -/
structure SourceImage where
  rows : Nat
  cols : Nat
  regionColor : Nat → Nat → RGBAPixel

/-- Embedding of `Point<3>(c.red, c.green, c.blue)` (maptiles.cpp:30 and 49). -/
def pixelPoint (c : RGBAPixel) : Pt := [c.red, c.green, c.blue]

/-- Modelled from the spec: the mosaic canvas — dimensions plus the tile at
each position, written by `setTile` (`MosaicCanvas`, declared outside
`src/`). -/
structure MosaicCanvas where
  rows : Nat
  cols : Nat
  tileAt : Nat → Nat → Option TileImage

def MosaicCanvas.setTile (m : MosaicCanvas) (i j : Nat) (t : TileImage) :
    MosaicCanvas :=
  { m with tileAt := fun a b => if a = i ∧ b = j then some t else m.tileAt a b }

/-- The `std::map<Point<3>, TileImage>` of maptiles.cpp:18, as an
association list: `operator[]` assignment prepends (later writes shadow
earlier ones — last-write-wins), lookup takes the first match. -/
def tmFind (m : List (Pt × TileImage)) (k : Pt) : Option TileImage :=
  (m.find? (fun e => e.1 == k)).map (fun e => e.2)

/-- Embedding of `tileImages[nearest]` in a read position (maptiles.cpp:55):
`std::map::operator[]` yields a default-constructed `TileImage` when the key
is absent. -/
def tmGet (m : List (Pt × TileImage)) (k : Pt) : TileImage :=
  (tmFind m k).getD default

/-- Embedding of `mapTiles` (maptiles.cpp:12-63), additionally counting the tree queries.
The canvas starts with all positions unset; each region (i, j) gets the tile
looked up for the nearest neighbor of its average color point.  For a region
where the model's `findNearestNeighbor` fails (an out-of-range read in the
C++), the cell receives the default tile. -/
def mapTiles (theSource : SourceImage) (theTiles : List TileImage) :
    MosaicCanvas × Nat :=
  let tileImages := theTiles.foldl
    (fun m t => (pixelPoint t.getAverageColor, t) :: m) []
  let tileColors := theTiles.map (fun t => pixelPoint t.getAverageColor)
  let regionColors := buildPoints 3 tileColors
  (List.range theSource.rows).foldl (fun acc i =>
    (List.range theSource.cols).foldl (fun acc2 j =>
      let t := match findNearestNeighbor 3 regionColors
          (pixelPoint (theSource.regionColor i j)) with
        | some nearest => tmGet tileImages nearest
        | none => default
      (acc2.1.setTile i j t, acc2.2 + 1)) acc)
    (⟨theSource.rows, theSource.cols, fun _ _ => none⟩, 0)

/-- The tile `mapTiles` computes for region `(i, j)`. -/
def mapTilesCell (theSource : SourceImage) (theTiles : List TileImage)
    (i j : Nat) : TileImage :=
  match findNearestNeighbor 3
      (buildPoints 3 (theTiles.map (fun t => pixelPoint t.getAverageColor)))
      (pixelPoint (theSource.regionColor i j)) with
  | some nearest => tmGet (theTiles.foldl
      (fun m t => (pixelPoint t.getAverageColor, t) :: m) []) nearest
  | none => default

theorem mapTiles_eq_foldl (theSource : SourceImage) (theTiles : List TileImage) :
    mapTiles theSource theTiles =
      (List.range theSource.rows).foldl (fun acc i =>
        (List.range theSource.cols).foldl (fun acc2 j =>
          (acc2.1.setTile i j (mapTilesCell theSource theTiles i j),
           acc2.2 + 1)) acc)
        (⟨theSource.rows, theSource.cols, fun _ _ => none⟩, 0) := rfl

theorem tileAt_setTile (m : MosaicCanvas) (i j a b : Nat) (t : TileImage) :
    (m.setTile i j t).tileAt a b =
      if a = i ∧ b = j then some t else m.tileAt a b := rfl

theorem inner_foldl_tileAt (g : Nat → Nat → TileImage) (i : Nat) :
    ∀ (cols : Nat) (acc : MosaicCanvas × Nat) (a b : Nat),
      ((List.range cols).foldl (fun acc2 j =>
        (acc2.1.setTile i j (g i j), acc2.2 + 1)) acc).1.tileAt a b =
        if a = i ∧ b < cols then some (g i b) else acc.1.tileAt a b := by
  intro cols
  induction cols with
  | zero =>
    intro acc a b
    simp
  | succ c ih =>
    intro acc a b
    rw [List.range_succ, List.foldl_append, List.foldl_cons, List.foldl_nil]
    dsimp only
    rw [tileAt_setTile]
    by_cases hab : a = i ∧ b = c
    · rw [if_pos hab, if_pos ⟨hab.1, by omega⟩, hab.2]
    · rw [if_neg hab, ih]
      by_cases h2 : a = i ∧ b < c
      · rw [if_pos h2, if_pos ⟨h2.1, by omega⟩]
      · rw [if_neg h2, if_neg ?_]
        intro hcon
        rcases Nat.lt_succ_iff_lt_or_eq.mp hcon.2 with h | h
        · exact h2 ⟨hcon.1, h⟩
        · exact hab ⟨hcon.1, h⟩

theorem inner_foldl_count (g : Nat → Nat → TileImage) (i : Nat) :
    ∀ (cols : Nat) (acc : MosaicCanvas × Nat),
      ((List.range cols).foldl (fun acc2 j =>
        (acc2.1.setTile i j (g i j), acc2.2 + 1)) acc).2 = acc.2 + cols := by
  intro cols
  induction cols with
  | zero => intro acc; rfl
  | succ c ih =>
    intro acc
    rw [List.range_succ, List.foldl_append, List.foldl_cons, List.foldl_nil]
    rw [ih]
    omega

theorem outer_foldl_tileAt (g : Nat → Nat → TileImage) :
    ∀ (rows cols : Nat) (acc : MosaicCanvas × Nat) (a b : Nat),
      ((List.range rows).foldl (fun acc i =>
        (List.range cols).foldl (fun acc2 j =>
          (acc2.1.setTile i j (g i j), acc2.2 + 1)) acc) acc).1.tileAt a b =
        if a < rows ∧ b < cols then some (g a b) else acc.1.tileAt a b := by
  intro rows
  induction rows with
  | zero =>
    intro cols acc a b
    simp
  | succ r ih =>
    intro cols acc a b
    rw [List.range_succ, List.foldl_append, List.foldl_cons, List.foldl_nil]
    rw [inner_foldl_tileAt, ih]
    by_cases hab : a = r ∧ b < cols
    · rw [if_pos hab, if_pos ⟨by omega, hab.2⟩, hab.1]
    · rw [if_neg hab]
      by_cases h2 : a < r ∧ b < cols
      · rw [if_pos h2, if_pos ⟨by omega, h2.2⟩]
      · rw [if_neg h2, if_neg ?_]
        intro hcon
        rcases Nat.lt_succ_iff_lt_or_eq.mp hcon.1 with h | h
        · exact h2 ⟨h, hcon.2⟩
        · exact hab ⟨h, hcon.2⟩

theorem outer_foldl_count (g : Nat → Nat → TileImage) :
    ∀ (rows cols : Nat) (acc : MosaicCanvas × Nat),
      ((List.range rows).foldl (fun acc i =>
        (List.range cols).foldl (fun acc2 j =>
          (acc2.1.setTile i j (g i j), acc2.2 + 1)) acc) acc).2 =
        acc.2 + rows * cols := by
  intro rows
  induction rows with
  | zero => intro cols acc; simp
  | succ r ih =>
    intro cols acc
    rw [List.range_succ, List.foldl_append, List.foldl_cons, List.foldl_nil]
    rw [inner_foldl_count, ih]
    ring

/-- C10: `mapTiles` queries the tree once per output region (rows × cols
queries in total), and sets the canvas tile at each in-range region `(i, j)`
to the tile the color→tile map associates with the point returned by
`findNearestNeighbor` on that region's average color point. -/
theorem mapTiles_correct (theSource : SourceImage) (theTiles : List TileImage)
    (i j : Nat) (hi : i < theSource.rows) (hj : j < theSource.cols) (p : Pt)
    (hq : findNearestNeighbor 3
      (buildPoints 3 (theTiles.map (fun t => pixelPoint t.getAverageColor)))
      (pixelPoint (theSource.regionColor i j)) = some p) :
    (mapTiles theSource theTiles).1.tileAt i j =
      some (tmGet (theTiles.foldl
        (fun m t => (pixelPoint t.getAverageColor, t) :: m) []) p) ∧
    (mapTiles theSource theTiles).2 = theSource.rows * theSource.cols := by
  constructor
  · rw [mapTiles_eq_foldl, outer_foldl_tileAt, if_pos ⟨hi, hj⟩]
    unfold mapTilesCell
    rw [hq]
  · rw [mapTiles_eq_foldl, outer_foldl_count]
    simp

/-- C10 witness: a 1×1 source, one tile with average color (5,5,5), region
color (4,4,4). -/
theorem mapTiles_correct_witness :
    (mapTiles ⟨1, 1, fun _ _ => ⟨4, 4, 4⟩⟩ [⟨7, ⟨5, 5, 5⟩⟩]).1.tileAt 0 0 =
      some ⟨7, ⟨5, 5, 5⟩⟩ ∧
    (mapTiles ⟨1, 1, fun _ _ => ⟨4, 4, 4⟩⟩ [⟨7, ⟨5, 5, 5⟩⟩]).2 = 1 := by
  have h := mapTiles_correct ⟨1, 1, fun _ _ => ⟨4, 4, 4⟩⟩ [⟨7, ⟨5, 5, 5⟩⟩] 0 0
    (by decide) (by decide) [5, 5, 5] (by decide)
  exact ⟨h.1, h.2⟩
